import Mathlib

/-!
Verification of the ZEINA company-map application (src/App.tsx).

The application maintains an immutable forest of `CompanyNode` records
(`tree : CompanyNode[]`), transformed by the operations `updateNode`,
`addChild`, `deleteNode`, observed by `flatten` and the portfolio `summary`,
and persisted to browser-local storage by `save`/`load`.

Modelling conventions:
* JS objects are modelled as Lean structures; the spread-copy `{ ...n }` of a
  value is the value itself under value semantics.
* The `docs` field holds whatever `Number(e.target.value)` produced — a
  finite value (always an integer in this application; other finite doubles
  behave identically under serialization), `NaN`, or `±Infinity` — or the
  `null` that reloading a non-finite value yields, since `JSON.stringify`
  writes `null` for non-finite numbers. `size` comes from the File API and
  is always a finite integer, modelled as `Int`.
* The TypeScript union `Status = "compliant" | "warning" | "critical"` is a
  compile-time-only annotation; at runtime the field holds an arbitrary
  string (e.g. admitted unvalidated through `load`), so `status : String`.
* `localStorage` is modelled as an association list of key/raw-text pairs.
  A raw text is either the serialization of a JSON value or malformed text;
  `JSON.parse` + `try/catch` maps the former to the value and the latter to
  an absent result.
-/

namespace Zeina

/-- Doc record (src/App.tsx line 13): metadata of one uploaded file. -/
structure Doc where
  id : String
  name : String
  size : Int
  uploadedAt : String

deriving instance DecidableEq, Repr for Doc

/-- Owner record (src/App.tsx lines 15-17): tagged union of an entity
reference or a free-text person. -/
inductive Owner where
  | entity (id : String) (entityId : String)
  | person (id : String) (name : String)

deriving instance DecidableEq, Repr for Owner

/-- A JS number as produced by `Number(e.target.value)` in the Docs input
(src/App.tsx line 311): a finite value (integral in this application), the
`NaN` of a non-numeric entry (spec §4.9), or an overflow `±Infinity`. -/
inductive JsNumber where
  | finite (i : Int)
  | nan
  | inf
  | negInf

deriving instance DecidableEq, Repr for JsNumber

/-- A runtime value of the `docs` property: a number, or the `null` that
`JSON.parse` yields where `JSON.stringify` wrote `null` for a non-finite
number in a previous session. -/
inductive DocsValue where
  | num (v : JsNumber)
  | jsNull

deriving instance DecidableEq, Repr for DocsValue

/-- The scalar and flat-list fields of a CompanyNode
(src/App.tsx lines 19-36), everything except the recursive `children`. -/
structure NodeFields where
  id : String
  name : String
  regNo : String
  country : String
  docs : DocsValue
  status : String
  owners : List Owner
  directors : List String
  directorDocs : List Doc
  ownershipDocs : List Doc
  regDate : Option String
  taxNo : Option String
  bankAccounts : List String

deriving instance DecidableEq, Repr for NodeFields

/-- CompanyNode (src/App.tsx lines 19-36): one legal entity together with
its ordered children forest. -/
inductive CompanyNode where
  | mk (fields : NodeFields) (children : List CompanyNode)

/-- Projection to the non-recursive fields. -/
def CompanyNode.fields : CompanyNode → NodeFields
  | .mk fs _ => fs

/-- Projection to the children forest. -/
def CompanyNode.children : CompanyNode → List CompanyNode
  | .mk _ cs => cs

@[simp] theorem CompanyNode.fields_mk (fs : NodeFields) (cs : List CompanyNode) :
    (CompanyNode.mk fs cs).fields = fs := rfl

@[simp] theorem CompanyNode.children_mk (fs : NodeFields) (cs : List CompanyNode) :
    (CompanyNode.mk fs cs).children = cs := rfl

theorem CompanyNode.eta (n : CompanyNode) : CompanyNode.mk n.fields n.children = n := by
  cases n
  rfl

/-- Number of entities in a forest: the root(s) plus every descendant at
every depth (one per `CompanyNode` constructor). -/
def forestSize : List CompanyNode → Nat
  | [] => 0
  | .mk _ cs :: ns => 1 + forestSize cs + forestSize ns

/-- Number of entities in the subtree rooted at one node. -/
def nodeSize (n : CompanyNode) : Nat := 1 + forestSize n.children

/-- Every id occurring in the forest, in depth-first pre-order. -/
def forestIds : List CompanyNode → List String
  | [] => []
  | .mk fs cs :: ns => fs.id :: (forestIds cs ++ forestIds ns)

/-- The forest has pairwise distinct ids (the well-formedness the data
model maintains by construction: new children always get generator output,
never an existing node). -/
def uniqueIds (f : List CompanyNode) : Prop := (forestIds f).Nodup

instance (f : List CompanyNode) : Decidable (uniqueIds f) := by
  unfold uniqueIds
  infer_instance

/-- Occurrence of a node value somewhere in a forest (as a root or as a
descendant at any depth). -/
def occursIn (m : CompanyNode) : List CompanyNode → Prop
  | [] => False
  | .mk fs cs :: ns => m = .mk fs cs ∨ occursIn m cs ∨ occursIn m ns

/-- updateNode (src/App.tsx lines 440-444), the recursion `rec` applied to
the whole tree:
`nodes.map(n => (n.id === id ? updater({ ...n }) : { ...n, children: rec(n.children) }))`.
The spread `{ ...n }` is a shallow copy, i.e. the value `n` itself. -/
def updateNode (id : String) (updater : CompanyNode → CompanyNode) :
    List CompanyNode → List CompanyNode
  | [] => []
  | .mk fs cs :: ns =>
      (if fs.id = id then updater (.mk fs cs)
       else .mk fs (updateNode id updater cs)) :: updateNode id updater ns

/-- flatten (src/App.tsx lines 445-449): the depth-first pre-order listing
produced by `walk` (lines 437-439), which visits a node, then its children
recursively, then its later siblings. -/
def flatten : List CompanyNode → List CompanyNode
  | [] => []
  | .mk fs cs :: ns => .mk fs cs :: (flatten cs ++ flatten ns)

/-- The default child constructed by addChild (src/App.tsx lines 451-464):
`name = "New Entity"`, `regNo = "—"`, `country = "—"`, `docs = 0`,
`status = "warning"`, all lists empty, no `regDate`/`taxNo` keys, no
children; its id is the output of `uid()`, passed in as `newId`. -/
def newChild (newId : String) : CompanyNode :=
  .mk
    { id := newId
      name := "New Entity"
      regNo := "—"
      country := "—"
      docs := .num (.finite 0)
      status := "warning"
      owners := []
      directors := []
      directorDocs := []
      ownershipDocs := []
      regDate := none
      taxNo := none
      bankAccounts := [] }
    []

/-- addChild (src/App.tsx lines 450-470), the recursion `rec` applied to the
whole tree:
`nodes.map(n => (n.id === parentId ? { ...n, children: [...n.children, child] } : { ...n, children: rec(n.children) }))`.
`newId` is the output of `uid()` (line 39), a random 7-character token with
no uniqueness check. -/
def addChild (newId parentId : String) : List CompanyNode → List CompanyNode
  | [] => []
  | .mk fs cs :: ns =>
      (if fs.id = parentId then .mk fs (cs ++ [newChild newId])
       else .mk fs (addChild newId parentId cs)) :: addChild newId parentId ns

/-- deleteNode (src/App.tsx lines 471-475), the recursion `rec` applied to
the whole tree:
`nodes.filter(n => n.id !== id).map(n => ({ ...n, children: rec(n.children) }))`,
written with the filter fused into the traversal (an element is dropped
exactly when its id matches; survivors are kept with recursed children). -/
def deleteNode (id : String) : List CompanyNode → List CompanyNode
  | [] => []
  | .mk fs cs :: ns =>
      if fs.id = id then deleteNode id ns
      else .mk fs (deleteNode id cs) :: deleteNode id ns

/-- Test whether a status string is the literal `"compliant"`
(the first branch of the summary visitor, src/App.tsx line 481). -/
def isCompliantB (n : CompanyNode) : Bool := n.fields.status == "compliant"

/-- Test whether a status string is the literal `"warning"`
(the second branch of the summary visitor, src/App.tsx line 482). -/
def isWarningB (n : CompanyNode) : Bool := n.fields.status == "warning"

/-- Test for the catch-all `else critical++` branch (src/App.tsx line 483):
any status other than `"compliant"` and `"warning"`. -/
def isCriticalB (n : CompanyNode) : Bool := !isCompliantB n && !isWarningB n

/-- One visitor step of the summary counters (src/App.tsx lines 480-484):
`if (n.status === "compliant") compliant++; else if (n.status === "warning") warning++; else critical++`. -/
def summaryStep (acc : Nat × Nat × Nat) (n : CompanyNode) : Nat × Nat × Nat :=
  if isCompliantB n then (acc.1 + 1, acc.2.1, acc.2.2)
  else if isWarningB n then (acc.1, acc.2.1 + 1, acc.2.2)
  else (acc.1, acc.2.1, acc.2.2 + 1)

/-- summary (src/App.tsx lines 478-486): the three counters accumulated by
`walk` over the whole tree, i.e. a fold of the visitor over the depth-first
pre-order node list, starting from zero.
Components: `(compliant, warning, critical)`. -/
def summary (f : List CompanyNode) : Nat × Nat × Nat :=
  (flatten f).foldl summaryStep (0, 0, 0)

/-- Seed data (src/App.tsx lines 55-105). The three `uid()` calls are the
parameters `u1 u2 u3`. -/
def seed (u1 u2 u3 : String) : List CompanyNode :=
  [ .mk
      { id := u1
        name := "Alpine Holdings SA"
        regNo := "CH-001-234-567"
        country := "Switzerland"
        docs := .num (.finite 2)
        status := "compliant"
        owners := []
        directors := ["Anna Keller"]
        directorDocs := []
        ownershipDocs := []
        regDate := some "2018-05-12"
        taxNo := some "CHE-123.456.789"
        bankAccounts := ["CH93 0076 2011 6238 5295 7"] }
      [ .mk
          { id := u2
            name := "Monaco Investments Ltd"
            regNo := "MC-2021-789"
            country := "Monaco"
            docs := .num (.finite 2)
            status := "warning"
            owners := []
            directors := ["Jean Dupont"]
            directorDocs := []
            ownershipDocs := []
            regDate := some "2021-09-01"
            taxNo := some "MC-987654"
            bankAccounts := [] }
          []
      , .mk
          { id := u3
            name := "Luxembourg Financial SPV"
            regNo := "LU-2019-001"
            country := "Luxembourg"
            docs := .num (.finite 2)
            status := "critical"
            owners := []
            directors := []
            directorDocs := []
            ownershipDocs := []
            regDate := some "2019-01-03"
            taxNo := some "LU-2019-001-TAX"
            bankAccounts := ["LU28 0019 4006 4475 0000"] }
          [] ]
  ]

/-! ### Spec-side path observations

These definitions follow the specification's language ("the node with that
id", "the parent's children sequence shrinks by exactly one", "all other
nodes preserved"): a path addresses one node in a forest, and replacement /
removal at a path touches exactly the addressed position. They are the
yardstick the source operations are compared against. -/

/-- Node addressed by a path: index `i` selects a root, then each entry of
`p` selects a child one level deeper. -/
def pathGet : List CompanyNode → Nat → List Nat → Option CompanyNode
  | f, i, [] => f[i]?
  | f, i, j :: p' =>
      match f[i]? with
      | none => none
      | some n => pathGet n.children j p'

/-- Replace exactly the node addressed by the path with `m`; every list
position other than the addressed one is kept literally, so every other
entity (and the order of every children sequence) is untouched.
`List.set` out of range is the identity, matching the absent-id no-op. -/
def pathReplace : List CompanyNode → Nat → List Nat → CompanyNode → List CompanyNode
  | f, i, [], m => f.set i m
  | f, i, j :: p', m =>
      match f[i]? with
      | none => f
      | some n => f.set i (.mk n.fields (pathReplace n.children j p' m))

/-- Remove exactly the node addressed by the path (with its whole subtree):
the parent's children sequence loses the one addressed element and keeps the
remaining children in their original order; every other entity is kept
literally. `List.eraseIdx` out of range is the identity. -/
def pathRemove : List CompanyNode → Nat → List Nat → List CompanyNode
  | f, i, [] => f.eraseIdx i
  | f, i, j :: p' =>
      match f[i]? with
      | none => f
      | some n => f.set i (.mk n.fields (pathRemove n.children j p'))

/-- Structural induction for the nested forest type: to prove a property of
every forest it suffices to cover nil and cons, with hypotheses for the
head's children and for the tail. -/
theorem forest_induction (P : List CompanyNode → Prop)
    (h1 : P []) (h2 : ∀ fs cs ns, P cs → P ns → P (CompanyNode.mk fs cs :: ns)) :
    ∀ f, P f
  | [] => h1
  | .mk fs cs :: ns => h2 fs cs ns (forest_induction P h1 h2 cs) (forest_induction P h1 h2 ns)

/-! ### Unfolding lemmas for the path observations -/

@[simp] theorem pathGet_nil (i : Nat) (p : List Nat) : pathGet [] i p = none := by
  cases p <;> simp [pathGet]

@[simp] theorem pathGet_cons_zero_nil (a : CompanyNode) (ns : List CompanyNode) :
    pathGet (a :: ns) 0 [] = some a := by
  simp [pathGet]

@[simp] theorem pathGet_cons_zero_cons (a : CompanyNode) (ns : List CompanyNode)
    (j : Nat) (p' : List Nat) :
    pathGet (a :: ns) 0 (j :: p') = pathGet a.children j p' := by
  simp [pathGet]

@[simp] theorem pathGet_cons_succ (a : CompanyNode) (ns : List CompanyNode)
    (i : Nat) (p : List Nat) :
    pathGet (a :: ns) (i + 1) p = pathGet ns i p := by
  cases p <;> simp [pathGet]

@[simp] theorem pathReplace_cons_zero_nil (a m : CompanyNode) (ns : List CompanyNode) :
    pathReplace (a :: ns) 0 [] m = m :: ns := by
  simp [pathReplace]

@[simp] theorem pathReplace_cons_zero_cons (a m : CompanyNode) (ns : List CompanyNode)
    (j : Nat) (p' : List Nat) :
    pathReplace (a :: ns) 0 (j :: p') m =
      CompanyNode.mk a.fields (pathReplace a.children j p' m) :: ns := by
  simp [pathReplace]

@[simp] theorem pathReplace_cons_succ (a m : CompanyNode) (ns : List CompanyNode)
    (i : Nat) (p : List Nat) :
    pathReplace (a :: ns) (i + 1) p m = a :: pathReplace ns i p m := by
  cases p with
  | nil => simp [pathReplace]
  | cons j p' =>
    rw [pathReplace, pathReplace, List.getElem?_cons_succ]
    cases h : ns[i]? with
    | none => rfl
    | some b => simp

@[simp] theorem pathRemove_cons_zero_nil (a : CompanyNode) (ns : List CompanyNode) :
    pathRemove (a :: ns) 0 [] = ns := by
  simp [pathRemove]

@[simp] theorem pathRemove_cons_zero_cons (a : CompanyNode) (ns : List CompanyNode)
    (j : Nat) (p' : List Nat) :
    pathRemove (a :: ns) 0 (j :: p') =
      CompanyNode.mk a.fields (pathRemove a.children j p') :: ns := by
  simp [pathRemove]

@[simp] theorem pathRemove_cons_succ (a : CompanyNode) (ns : List CompanyNode)
    (i : Nat) (p : List Nat) :
    pathRemove (a :: ns) (i + 1) p = a :: pathRemove ns i p := by
  cases p with
  | nil => simp [pathRemove]
  | cons j p' =>
    rw [pathRemove, pathRemove, List.getElem?_cons_succ]
    cases h : ns[i]? with
    | none => rfl
    | some b => simp

/-! ### Dissecting unique-id hypotheses -/

theorem uniqueIds_cons {fs : NodeFields} {cs ns : List CompanyNode}
    (h : uniqueIds (.mk fs cs :: ns)) :
    fs.id ∉ forestIds cs ∧ fs.id ∉ forestIds ns ∧ uniqueIds cs ∧ uniqueIds ns ∧
      ∀ x ∈ forestIds cs, x ∉ forestIds ns := by
  unfold uniqueIds at h
  rw [forestIds] at h
  rcases List.nodup_cons.mp h with ⟨hhead, happ⟩
  simp only [List.mem_append] at hhead
  push_neg at hhead
  exact ⟨hhead.1, hhead.2, happ.of_append_left, happ.of_append_right,
    fun x hx => (List.disjoint_of_nodup_append happ) hx⟩

/-! ### Root membership and id membership -/

theorem mem_root_ids {m : CompanyNode} : ∀ {f : List CompanyNode}, m ∈ f →
    m.fields.id ∈ forestIds f ∧ ∀ x ∈ forestIds m.children, x ∈ forestIds f := by
  intro f
  induction f with
  | nil => intro h; cases h
  | cons a ns ih =>
    intro h
    obtain ⟨fs, cs⟩ := a
    rw [List.mem_cons] at h
    cases h with
    | inl h =>
      subst h
      constructor
      · rw [forestIds]; exact List.mem_cons_self _ _
      · intro x hx
        rw [forestIds]
        exact List.mem_cons_of_mem _ (List.mem_append_left _ hx)
    | inr h =>
      refine ⟨?_, fun x hx => ?_⟩
      · rw [forestIds]
        exact List.mem_cons_of_mem _ (List.mem_append_right _ ((ih h).1))
      · rw [forestIds]
        exact List.mem_cons_of_mem _ (List.mem_append_right _ ((ih h).2 x hx))

theorem pathGet_id_mem {n : CompanyNode} :
    ∀ (p : List Nat) (f : List CompanyNode) (i : Nat), pathGet f i p = some n →
      n.fields.id ∈ forestIds f := by
  intro p
  induction p with
  | nil =>
    intro f i h
    rw [pathGet] at h
    exact (mem_root_ids (List.getElem?_mem h)).1
  | cons j p' ih =>
    intro f i h
    rw [pathGet] at h
    cases hf : f[i]? with
    | none => rw [hf] at h; cases h
    | some m =>
      rw [hf] at h
      exact (mem_root_ids (List.getElem?_mem hf)).2 _ (ih m.children j h)

/-! ### No-op lemmas: an id absent from the forest leaves it unchanged -/

theorem updateNode_not_mem (id : String) (u : CompanyNode → CompanyNode) :
    ∀ f, id ∉ forestIds f → updateNode id u f = f := by
  intro f
  induction f using forest_induction with
  | h1 => intro _; simp [updateNode]
  | h2 fs cs ns ihc ihn =>
    intro h
    rw [forestIds] at h
    simp only [List.mem_cons, List.mem_append] at h
    push_neg at h
    obtain ⟨h1, h2, h3⟩ := h
    rw [updateNode, if_neg (fun hc => h1 hc.symm), ihc h2, ihn h3]

theorem deleteNode_not_mem (id : String) :
    ∀ f, id ∉ forestIds f → deleteNode id f = f := by
  intro f
  induction f using forest_induction with
  | h1 => intro _; simp [deleteNode]
  | h2 fs cs ns ihc ihn =>
    intro h
    rw [forestIds] at h
    simp only [List.mem_cons, List.mem_append] at h
    push_neg at h
    obtain ⟨h1, h2, h3⟩ := h
    rw [deleteNode, if_neg (fun hc => h1 hc.symm), ihc h2, ihn h3]

/-- addChild is updateNode with the append-one-default-child updater: the
two recursions (src/App.tsx lines 441-442 and 465-466) differ only in what
they do at the matched node. -/
theorem addChild_eq_updateNode (newId parentId : String) :
    ∀ f, addChild newId parentId f =
      updateNode parentId
        (fun n => CompanyNode.mk n.fields (n.children ++ [newChild newId])) f := by
  intro f
  induction f using forest_induction with
  | h1 => simp [addChild, updateNode]
  | h2 fs cs ns ihc ihn =>
    rw [addChild, updateNode, ihc, ihn]
    simp only [CompanyNode.fields_mk, CompanyNode.children_mk]

/-! ### Path characterizations of the mutation operations -/

/-- In a forest with unique ids, updateNode rewrites exactly the addressed
occurrence of the id to `updater` of that node and leaves every other
position of the forest literally unchanged. -/
theorem updateNode_at_path (id : String) (u : CompanyNode → CompanyNode) :
    ∀ (f : List CompanyNode) (i : Nat) (p : List Nat) (n : CompanyNode),
      uniqueIds f → pathGet f i p = some n → n.fields.id = id →
      updateNode id u f = pathReplace f i p (u n) := by
  intro f
  induction f using forest_induction with
  | h1 => intro i p n _ h _; simp at h
  | h2 fs cs ns ihc ihn =>
    intro i p n huniq hget hid
    obtain ⟨hnc, hnn, hucs, huns, hdisj⟩ := uniqueIds_cons huniq
    subst hid
    cases i with
    | zero =>
      cases p with
      | nil =>
        rw [pathGet_cons_zero_nil] at hget
        injection hget with hn
        subst hn
        simp only [CompanyNode.fields_mk] at hnc hnn ⊢
        rw [updateNode, if_pos rfl, pathReplace_cons_zero_nil,
          updateNode_not_mem _ _ _ hnn]
      | cons j p' =>
        rw [pathGet_cons_zero_cons, CompanyNode.children_mk] at hget
        have hmem : n.fields.id ∈ forestIds cs := pathGet_id_mem _ _ _ hget
        have hne : ¬ fs.id = n.fields.id := by
          intro hc
          rw [hc] at hnc
          exact hnc hmem
        rw [updateNode, if_neg hne,
          pathReplace_cons_zero_cons, CompanyNode.fields_mk, CompanyNode.children_mk,
          ihc _ _ _ hucs hget rfl, updateNode_not_mem _ _ _ (hdisj _ hmem)]
    | succ i' =>
      rw [pathGet_cons_succ] at hget
      have hmem : n.fields.id ∈ forestIds ns := pathGet_id_mem _ _ _ hget
      have hninc : n.fields.id ∉ forestIds cs := fun hc => hdisj _ hc hmem
      have hne : ¬ fs.id = n.fields.id := by
        intro hc
        rw [hc] at hnn
        exact hnn hmem
      rw [updateNode, if_neg hne,
        pathReplace_cons_succ, updateNode_not_mem _ _ _ hninc,
        ihn _ _ _ huns hget rfl]

/-- In a forest with unique ids, deleteNode removes exactly the addressed
occurrence (with its whole subtree) and leaves every other position of the
forest literally unchanged. -/
theorem deleteNode_at_path :
    ∀ (f : List CompanyNode) (i : Nat) (p : List Nat) (n : CompanyNode),
      uniqueIds f → pathGet f i p = some n →
      deleteNode n.fields.id f = pathRemove f i p := by
  intro f
  induction f using forest_induction with
  | h1 => intro i p n _ h; simp at h
  | h2 fs cs ns ihc ihn =>
    intro i p n huniq hget
    obtain ⟨hnc, hnn, hucs, huns, hdisj⟩ := uniqueIds_cons huniq
    cases i with
    | zero =>
      cases p with
      | nil =>
        rw [pathGet_cons_zero_nil] at hget
        injection hget with hn
        subst hn
        simp only [CompanyNode.fields_mk] at hnn ⊢
        rw [deleteNode, if_pos rfl, pathRemove_cons_zero_nil,
          deleteNode_not_mem _ _ hnn]
      | cons j p' =>
        rw [pathGet_cons_zero_cons, CompanyNode.children_mk] at hget
        have hmem : n.fields.id ∈ forestIds cs := pathGet_id_mem _ _ _ hget
        have hne : ¬ fs.id = n.fields.id := by
          intro hc
          rw [hc] at hnc
          exact hnc hmem
        rw [deleteNode, if_neg hne,
          pathRemove_cons_zero_cons, CompanyNode.fields_mk, CompanyNode.children_mk,
          ihc _ _ _ hucs hget, deleteNode_not_mem _ _ (hdisj _ hmem)]
    | succ i' =>
      rw [pathGet_cons_succ] at hget
      have hmem : n.fields.id ∈ forestIds ns := pathGet_id_mem _ _ _ hget
      have hninc : n.fields.id ∉ forestIds cs := fun hc => hdisj _ hc hmem
      have hne : ¬ fs.id = n.fields.id := by
        intro hc
        rw [hc] at hnn
        exact hnn hmem
      rw [deleteNode, if_neg hne,
        pathRemove_cons_succ, deleteNode_not_mem _ _ hninc,
        ihn _ _ _ huns hget]

/-- Removing the addressed subtree takes away exactly its size: the count of
the removed node plus all of its descendants. -/
theorem pathRemove_size :
    ∀ (f : List CompanyNode) (i : Nat) (p : List Nat) (n : CompanyNode),
      pathGet f i p = some n →
      forestSize f = nodeSize n + forestSize (pathRemove f i p) := by
  intro f
  induction f using forest_induction with
  | h1 => intro i p n h; simp at h
  | h2 fs cs ns ihc ihn =>
    intro i p n hget
    cases i with
    | zero =>
      cases p with
      | nil =>
        rw [pathGet_cons_zero_nil] at hget
        injection hget with hn
        subst hn
        rw [pathRemove_cons_zero_nil, forestSize, nodeSize, CompanyNode.children_mk]
      | cons j p' =>
        rw [pathGet_cons_zero_cons, CompanyNode.children_mk] at hget
        rw [pathRemove_cons_zero_cons, CompanyNode.fields_mk, CompanyNode.children_mk,
          forestSize, forestSize]
        have := ihc _ _ _ hget
        omega
    | succ i' =>
      rw [pathGet_cons_succ] at hget
      rw [pathRemove_cons_succ, forestSize, forestSize]
      have := ihn _ _ _ hget
      omega

/-! ### Facts about flatten -/

theorem flatten_length : ∀ f : List CompanyNode, (flatten f).length = forestSize f := by
  intro f
  induction f using forest_induction with
  | h1 => simp [flatten, forestSize]
  | h2 fs cs ns ihc ihn =>
    rw [flatten, forestSize]
    simp only [List.length_cons, List.length_append, ihc, ihn]
    omega

theorem flatten_mem : ∀ (f : List CompanyNode) (m : CompanyNode),
    m ∈ flatten f ↔ occursIn m f := by
  intro f
  induction f using forest_induction with
  | h1 => intro m; simp [flatten, occursIn]
  | h2 fs cs ns ihc ihn =>
    intro m
    rw [flatten, occursIn]
    simp only [List.mem_cons, List.mem_append, ihc, ihn]

theorem flatten_map_ids : ∀ f : List CompanyNode,
    (flatten f).map (fun n => n.fields.id) = forestIds f := by
  intro f
  induction f using forest_induction with
  | h1 => simp [flatten, forestIds]
  | h2 fs cs ns ihc ihn =>
    rw [flatten, forestIds]
    simp only [List.map_cons, List.map_append, ihc, ihn, CompanyNode.fields_mk]

theorem flatten_seg : ∀ (f : List CompanyNode) (m : CompanyNode), occursIn m f →
    ∃ pre post, flatten f = pre ++ (m :: flatten m.children) ++ post := by
  intro f
  induction f using forest_induction with
  | h1 => intro m h; rw [occursIn] at h; exact h.elim
  | h2 fs cs ns ihc ihn =>
    intro m h
    rw [occursIn] at h
    rcases h with h | h | h
    · subst h
      exact ⟨[], flatten ns, by rw [flatten]; simp⟩
    · obtain ⟨pre, post, hseg⟩ := ihc m h
      refine ⟨CompanyNode.mk fs cs :: pre, post ++ flatten ns, ?_⟩
      rw [flatten, hseg]
      simp
    · obtain ⟨pre, post, hseg⟩ := ihn m h
      refine ⟨CompanyNode.mk fs cs :: (flatten cs ++ pre), post, ?_⟩
      rw [flatten, hseg]
      simp

/-! ### Facts about the summary fold -/

theorem summary_foldl (l : List CompanyNode) : ∀ acc : Nat × Nat × Nat,
    l.foldl summaryStep acc =
      (acc.1 + l.countP isCompliantB, acc.2.1 + l.countP isWarningB,
        acc.2.2 + l.countP isCriticalB) := by
  induction l with
  | nil => intro acc; simp [List.countP_nil]
  | cons n l ih =>
    intro acc
    rw [List.foldl_cons, ih]
    obtain ⟨a, b, c⟩ := acc
    cases h1 : isCompliantB n with
    | true =>
      have hs : n.fields.status = "compliant" := by
        simpa [isCompliantB] using h1
      have h2 : isWarningB n = false := by simp [isWarningB, hs]
      have h3 : isCriticalB n = false := by simp [isCriticalB, h1]
      simp [summaryStep, h1, h2, h3, List.countP_cons]
      omega
    | false =>
      cases h2 : isWarningB n with
      | true =>
        have h3 : isCriticalB n = false := by simp [isCriticalB, h2]
        simp [summaryStep, h1, h2, h3, List.countP_cons]
        omega
      | false =>
        have h3 : isCriticalB n = true := by simp [isCriticalB, h1, h2]
        simp [summaryStep, h1, h2, h3, List.countP_cons]
        omega

theorem summary_eq_counts (f : List CompanyNode) :
    summary f = ((flatten f).countP isCompliantB, (flatten f).countP isWarningB,
      (flatten f).countP isCriticalB) := by
  rw [summary, summary_foldl]
  simp

theorem countP_three_sum (l : List CompanyNode) :
    l.countP isCompliantB + l.countP isWarningB + l.countP isCriticalB = l.length := by
  induction l with
  | nil => simp
  | cons n l ih =>
    simp only [List.countP_cons, List.length_cons]
    cases h1 : isCompliantB n with
    | true =>
      have hs : n.fields.status = "compliant" := by
        simpa [isCompliantB] using h1
      have h2 : isWarningB n = false := by simp [isWarningB, hs]
      simp [isCriticalB, h1, h2]
      omega
    | false =>
      cases h2 : isWarningB n with
      | true =>
        simp [isCriticalB, h1, h2]
        omega
      | false =>
        simp [isCriticalB, h1, h2]
        omega

/-! ### Persistence model (src/App.tsx lines 39-52, 429, 434)

`save` runs `localStorage.setItem(STORAGE_KEY, JSON.stringify(tree))` and
`load` runs `JSON.parse(localStorage.getItem(STORAGE_KEY))` inside a
`try/catch` that maps every read/decode failure to `null`. The JSON text is
modelled at the level of its parse tree: a stored raw text is either the
serialization of a JSON value (`wellFormed j`, which `JSON.parse` recovers
exactly) or unparsable text (`malformed`, which makes `JSON.parse` throw —
caught and turned into an absent result). The untyped
`as CompanyNode[]` cast is modelled by the structural reader
`decodeForest`, which checks only the shape the application reads back and
validates no field values — in particular any string is accepted as a
`status`. -/

/-- JSON value tree. Numeric leaves are restricted to integers, the only
numbers this application writes. -/
inductive JsonValue where
  | null : JsonValue
  | bool (b : Bool) : JsonValue
  | num (n : Int) : JsonValue
  | str (s : String) : JsonValue
  | arr (elems : List JsonValue) : JsonValue
  | obj (fields : List (String × JsonValue)) : JsonValue

/-- Serialization of a docs value by JSON.stringify: finite numbers are
written as numbers; `NaN` and `±Infinity` are written as `null`; `null` is
written as `null`. -/
def encodeDocsValue : DocsValue → JsonValue
  | .num (.finite i) => .num i
  | .num .nan => .null
  | .num .inf => .null
  | .num .negInf => .null
  | .jsNull => .null

/-- What one docs value comes back as after a stringify/parse round trip:
finite numbers and `null` survive; `NaN` and `±Infinity` collapse to
`null`. -/
def reloadDocs : DocsValue → DocsValue
  | .num (.finite i) => .num (.finite i)
  | .num .nan => .jsNull
  | .num .inf => .jsNull
  | .num .negInf => .jsNull
  | .jsNull => .jsNull

/-- A docs value that JSON round-trips unchanged: anything but `NaN` and
`±Infinity`. -/
def docsJsonSafe : DocsValue → Prop
  | .num .nan => False
  | .num .inf => False
  | .num .negInf => False
  | _ => True

/-- Every entity's docs value in the forest survives a JSON round trip. -/
def jsonSafeDocs : List CompanyNode → Prop
  | [] => True
  | .mk fs cs :: ns => docsJsonSafe fs.docs ∧ jsonSafeDocs cs ∧ jsonSafeDocs ns

/-- The forest as it comes back from a stringify/parse round trip: every
node kept in place with its docs value pushed through `reloadDocs`,
everything else intact. -/
def reloadForest : List CompanyNode → List CompanyNode
  | [] => []
  | .mk fs cs :: ns =>
      .mk { fs with docs := reloadDocs fs.docs } (reloadForest cs) :: reloadForest ns

/-- Serialization of a Doc record, key order as in its construction
(src/App.tsx lines 264-269). -/
def encodeDoc (d : Doc) : JsonValue :=
  .obj [("id", .str d.id), ("name", .str d.name), ("size", .num d.size),
    ("uploadedAt", .str d.uploadedAt)]

/-- Serialization of an Owner record, key order as in its construction
(src/App.tsx lines 246-249). -/
def encodeOwner : Owner → JsonValue
  | .entity i e => .obj [("id", .str i), ("kind", .str "entity"), ("entityId", .str e)]
  | .person i nm => .obj [("id", .str i), ("kind", .str "person"), ("name", .str nm)]

mutual

/-- Serialization of a CompanyNode: one JSON object holding every field;
`regDate`/`taxNo` keys are present exactly when the field is (JSON.stringify
drops absent/undefined properties). -/
def encodeNode : CompanyNode → JsonValue
  | .mk fs cs =>
      .obj
        ([("id", .str fs.id), ("name", .str fs.name), ("regNo", .str fs.regNo),
          ("country", .str fs.country), ("docs", encodeDocsValue fs.docs),
          ("status", .str fs.status),
          ("owners", .arr (fs.owners.map encodeOwner)),
          ("directors", .arr (fs.directors.map JsonValue.str)),
          ("directorDocs", .arr (fs.directorDocs.map encodeDoc)),
          ("ownershipDocs", .arr (fs.ownershipDocs.map encodeDoc)),
          ("bankAccounts", .arr (fs.bankAccounts.map JsonValue.str))]
        ++ (match fs.regDate with
            | none => []
            | some d => [("regDate", JsonValue.str d)])
        ++ (match fs.taxNo with
            | none => []
            | some t => [("taxNo", JsonValue.str t)])
        ++ [("children", .arr (encodeList cs))])

/-- Serialization of a forest, element by element. -/
def encodeList : List CompanyNode → List JsonValue
  | [] => []
  | n :: ns => encodeNode n :: encodeList ns

end

/-- Property access on a parsed JSON object: the value under the first
matching key. -/
def lookupField (l : List (String × JsonValue)) (k : String) : Option JsonValue :=
  (l.find? (fun kv => kv.1 == k)).map (fun kv => kv.2)

/-- Read a string-valued property. -/
def asStr : Option JsonValue → Option String
  | some (.str s) => some s
  | _ => none

/-- Read an integer-valued property. -/
def asInt : Option JsonValue → Option Int
  | some (.num n) => some n
  | _ => none

/-- Read the docs property as the cast leaves it: a number parses back as
that (finite) number, a `null` (written for a non-finite number) parses
back as `null`. -/
def asDocs : Option JsonValue → Option DocsValue
  | some (.num i) => some (.num (.finite i))
  | some .null => some .jsNull
  | _ => none

/-- Read an optional string-valued property: an absent key is an absent
field, a string is a present field. -/
def asOptStr : Option JsonValue → Option (Option String)
  | none => some none
  | some (.str s) => some (some s)
  | _ => none

/-- Read back one Owner from its parsed object, dispatching on the `kind`
tag the way the application does. -/
def decodeOwner : JsonValue → Option Owner
  | .obj l =>
      match asStr (lookupField l "kind") with
      | some "entity" =>
          match asStr (lookupField l "id"), asStr (lookupField l "entityId") with
          | some i, some e => some (.entity i e)
          | _, _ => none
      | some "person" =>
          match asStr (lookupField l "id"), asStr (lookupField l "name") with
          | some i, some nm => some (.person i nm)
          | _, _ => none
      | _ => none
  | _ => none

/-- Read back a list of owners. -/
def decodeOwnerElems : List JsonValue → Option (List Owner)
  | [] => some []
  | j :: js =>
      match decodeOwner j, decodeOwnerElems js with
      | some o, some os => some (o :: os)
      | _, _ => none

/-- Read an owners-array-valued property. -/
def decodeOwners : Option JsonValue → Option (List Owner)
  | some (.arr es) => decodeOwnerElems es
  | _ => none

/-- Read back one Doc from its parsed object. -/
def decodeDoc : JsonValue → Option Doc
  | .obj l =>
      match asStr (lookupField l "id"), asStr (lookupField l "name"),
        asInt (lookupField l "size"), asStr (lookupField l "uploadedAt") with
      | some i, some nm, some sz, some up =>
          some { id := i, name := nm, size := sz, uploadedAt := up }
      | _, _, _, _ => none
  | _ => none

/-- Read back a list of docs. -/
def decodeDocElems : List JsonValue → Option (List Doc)
  | [] => some []
  | j :: js =>
      match decodeDoc j, decodeDocElems js with
      | some d, some ds => some (d :: ds)
      | _, _ => none

/-- Read a docs-array-valued property. -/
def decodeDocs : Option JsonValue → Option (List Doc)
  | some (.arr es) => decodeDocElems es
  | _ => none

/-- Read back a list of strings. -/
def decodeStrElems : List JsonValue → Option (List String)
  | [] => some []
  | .str s :: js => (decodeStrElems js).map (fun l => s :: l)
  | _ => none

/-- Read a string-array-valued property. -/
def decodeStrs : Option JsonValue → Option (List String)
  | some (.arr es) => decodeStrElems es
  | _ => none

/-- Assemble a CompanyNode from the non-recursive properties of a parsed
object, given already-read children. The `status` property is accepted as
an arbitrary string — no validation against the three-value set. -/
def buildNode (l : List (String × JsonValue)) (cs : List CompanyNode) :
    Option CompanyNode := do
  let i ← asStr (lookupField l "id")
  let nm ← asStr (lookupField l "name")
  let rn ← asStr (lookupField l "regNo")
  let co ← asStr (lookupField l "country")
  let dc ← asDocs (lookupField l "docs")
  let st ← asStr (lookupField l "status")
  let ow ← decodeOwners (lookupField l "owners")
  let dir ← decodeStrs (lookupField l "directors")
  let dd ← decodeDocs (lookupField l "directorDocs")
  let od ← decodeDocs (lookupField l "ownershipDocs")
  let rd ← asOptStr (lookupField l "regDate")
  let tx ← asOptStr (lookupField l "taxNo")
  let ba ← decodeStrs (lookupField l "bankAccounts")
  some (.mk
    { id := i, name := nm, regNo := rn, country := co, docs := dc, status := st,
      owners := ow, directors := dir, directorDocs := dd, ownershipDocs := od,
      regDate := rd, taxNo := tx, bankAccounts := ba } cs)

mutual

/-- Read back one CompanyNode from a parsed JSON value. -/
def decodeNode : JsonValue → Option CompanyNode
  | .obj l =>
      match decodeChildren l with
      | none => none
      | some cs => buildNode l cs
  | _ => none

/-- Find the `children` property in a parsed object and read it back. -/
def decodeChildren : List (String × JsonValue) → Option (List CompanyNode)
  | [] => none
  | (k, v) :: rest =>
      if k == "children" then
        match v with
        | .arr es => decodeElems es
        | _ => none
      else decodeChildren rest

/-- Read back a forest, element by element. -/
def decodeElems : List JsonValue → Option (List CompanyNode)
  | [] => some []
  | j :: js =>
      match decodeNode j, decodeElems js with
      | some n, some ns => some (n :: ns)
      | _, _ => none

end

/-- Read back the whole stored tree: the top-level value must be an array
of nodes (the `CompanyNode[]` shape the application stores and reads). -/
def decodeForest : JsonValue → Option (List CompanyNode)
  | .arr es => decodeElems es
  | _ => none

/-- Raw text held in storage: either the serialization of a JSON value, or
text that is not valid JSON. -/
inductive RawText where
  | wellFormed (j : JsonValue)
  | malformed

/-- Storage key (src/App.tsx line 40). -/
def STORAGE_KEY : String := "zeina_bids_ui_v2"

/-- Browser-local storage: an association of keys to raw texts. -/
abbrev Storage := List (String × RawText)

/-- localStorage.getItem: the value under the key, if any. -/
def getItem (s : Storage) (k : String) : Option RawText :=
  (s.find? (fun kv => kv.1 == k)).map (fun kv => kv.2)

/-- localStorage.setItem: unconditional overwrite of the key. -/
def setItem (s : Storage) (k : String) (v : RawText) : Storage :=
  (k, v) :: s.filter (fun kv => kv.1 != k)

/-- JSON.stringify: a well-formed serialization of the value. -/
def jsonStringify (j : JsonValue) : RawText := .wellFormed j

/-- JSON.parse wrapped in the caller's try/catch: recovers the value from
its serialization, and an absent result (the caught exception) from
malformed text. -/
def jsonParse : RawText → Option JsonValue
  | .wellFormed j => some j
  | .malformed => none

/-- save (src/App.tsx lines 42-44):
`localStorage.setItem(STORAGE_KEY, JSON.stringify(tree))`. -/
def save (t : List CompanyNode) (s : Storage) : Storage :=
  setItem s STORAGE_KEY (jsonStringify (.arr (encodeList t)))

/-- load (src/App.tsx lines 45-52): read the raw text under the key; absent
key gives `null`; `JSON.parse` failure is caught and gives `null`;
otherwise the parsed value is used as the tree (`as CompanyNode[]`,
modelled by `decodeForest`). -/
def load (s : Storage) : Option (List CompanyNode) :=
  match getItem s STORAGE_KEY with
  | none => none
  | some raw =>
      match jsonParse raw with
      | none => none
      | some j => decodeForest j

/-- Initial tree of the application (src/App.tsx line 429):
`load() || seed`. -/
def initialTree (s : Storage) (u1 u2 u3 : String) : List CompanyNode :=
  (load s).getD (seed u1 u2 u3)

/-! ### Round-trip of the serialization -/

theorem decodeOwner_encode (o : Owner) : decodeOwner (encodeOwner o) = some o := by
  cases o <;> simp [encodeOwner, decodeOwner, lookupField, asStr]

theorem decodeOwnerElems_encode (l : List Owner) :
    decodeOwnerElems (l.map encodeOwner) = some l := by
  induction l with
  | nil => simp [decodeOwnerElems]
  | cons o os ih => simp [decodeOwnerElems, decodeOwner_encode, ih]

theorem decodeDoc_encode (d : Doc) : decodeDoc (encodeDoc d) = some d := by
  simp [encodeDoc, decodeDoc, lookupField, asStr, asInt]

theorem decodeDocElems_encode (l : List Doc) :
    decodeDocElems (l.map encodeDoc) = some l := by
  induction l with
  | nil => simp [decodeDocElems]
  | cons d ds ih => simp [decodeDocElems, decodeDoc_encode, ih]

theorem decodeStrElems_encode (l : List String) :
    decodeStrElems (l.map JsonValue.str) = some l := by
  induction l with
  | nil => simp [decodeStrElems]
  | cons s ss ih => simp [decodeStrElems, ih]

theorem decodeElems_encodeList :
    ∀ f : List CompanyNode, decodeElems (encodeList f) = some (reloadForest f) := by
  intro f
  induction f using forest_induction with
  | h1 => simp [encodeList, decodeElems, reloadForest]
  | h2 fs cs ns ihc ihn =>
    rw [encodeList, decodeElems]
    have hn : decodeNode (encodeNode (.mk fs cs)) =
        some (.mk { fs with docs := reloadDocs fs.docs } (reloadForest cs)) := by
      obtain ⟨i, nm, rn, co, dc, st, ow, dir, dd, od, rd, tx, ba⟩ := fs
      rw [encodeNode]
      rcases dc with jn | _ <;> try cases jn
      all_goals
        cases rd <;> cases tx <;>
          simp [decodeNode, decodeChildren, ihc, buildNode, lookupField, asStr,
            asDocs, encodeDocsValue, reloadDocs, asOptStr, decodeOwners,
            decodeOwnerElems_encode, decodeStrs, decodeStrElems_encode, decodeDocs,
            decodeDocElems_encode]
    rw [hn, ihn, reloadForest]

/-- A JSON-representable docs value survives the round trip unchanged. -/
theorem reloadDocs_eq_self (d : DocsValue) (h : docsJsonSafe d) :
    reloadDocs d = d := by
  rcases d with jn | _
  · rcases jn with i | _ | _ | _
    · rfl
    · rw [docsJsonSafe] at h; exact h.elim
    · rw [docsJsonSafe] at h; exact h.elim
    · rw [docsJsonSafe] at h; exact h.elim
  · rfl

/-- A forest whose docs values are all JSON-representable comes back from
the round trip unchanged. -/
theorem reloadForest_eq_self :
    ∀ f : List CompanyNode, jsonSafeDocs f → reloadForest f = f := by
  intro f
  induction f using forest_induction with
  | h1 => intro _; simp [reloadForest]
  | h2 fs cs ns ihc ihn =>
    intro h
    rw [jsonSafeDocs] at h
    obtain ⟨hd, hc, hn⟩ := h
    rw [reloadForest, reloadDocs_eq_self _ hd, ihc hc, ihn hn]

/-- Reading the stored entry back after a save yields the round-tripped
forest: identical except that every non-finite docs value has become
`null`. -/
theorem load_save (t : List CompanyNode) (s : Storage) :
    load (save t s) = some (reloadForest t) := by
  have hget : getItem (save t s) STORAGE_KEY =
      some (jsonStringify (.arr (encodeList t))) := by
    simp [save, setItem, getItem]
  simp [load, hget, jsonStringify, jsonParse, decodeForest, decodeElems_encodeList]

/-! ### Edit Panel draft model (src/App.tsx lines 214-273, 284-316)

The panel keeps a local draft, seeded as a shallow copy of the node
(`useState({ ...node, children: node.children })`, line 217). Every handler
replaces the draft with a fresh object (`setDraft({ ...draft, field: ... })`)
whose changed list, when present, is a newly allocated array
(`[...old, x]`, `arr.splice` on a copy, `arr[i] = v` on a copy). The tree is
never written by any of these handlers; only Save calls out to `updateNode`,
and Cancel (line 421) merely clears the editing id. -/

/-- One draft mutation available in the Edit Panel. -/
inductive DraftOp where
  | setName (v : String)
  | setRegNo (v : String)
  | setCountry (v : String)
  | setRegDate (v : String)
  | setTaxNo (v : String)
  | setDocs (v : JsNumber)
  | setStatus (v : String)
  | addDirector
  | updateDirector (i : Nat) (v : String)
  | removeDirector (i : Nat)
  | addBank
  | updateBank (i : Nat) (v : String)
  | removeBank (i : Nat)
  | addOwnerPerson (oid : String)
  | addOwnerEntity (oid : String) (entityId : String)
  | updateOwnerPerson (i : Nat) (v : String)
  | removeOwner (i : Nat)
  | uploadDirectorDocs (files : List Doc)
  | uploadOwnershipDocs (files : List Doc)

/-- Effect of one handler on the draft value. Field setters are the input
onChange handlers (lines 284-316); list handlers are lines 220-273:
append (`[...arr, x]`), positional overwrite (`arr[i] = v` on a copy,
modelled by `List.set`, a no-op out of range exactly like the handlers are
never invoked out of range), positional removal (`arr.splice(i, 1)` on a
copy, modelled by `List.eraseIdx`), and upload append. `uid()` outputs and
file metadata arrive as arguments. For `updateOwnerPerson` the UI renders
the name input only on person rows, so the entity-row case (which in JS
would spread a stray `name` property onto the owner object) is unreachable
and modelled as the identity. -/
def applyDraftOp (d : CompanyNode) : DraftOp → CompanyNode
  | .setName v => .mk { d.fields with name := v } d.children
  | .setRegNo v => .mk { d.fields with regNo := v } d.children
  | .setCountry v => .mk { d.fields with country := v } d.children
  | .setRegDate v => .mk { d.fields with regDate := some v } d.children
  | .setTaxNo v => .mk { d.fields with taxNo := some v } d.children
  | .setDocs v => .mk { d.fields with docs := .num v } d.children
  | .setStatus v => .mk { d.fields with status := v } d.children
  | .addDirector => .mk { d.fields with directors := d.fields.directors ++ [""] } d.children
  | .updateDirector i v =>
      .mk { d.fields with directors := d.fields.directors.set i v } d.children
  | .removeDirector i =>
      .mk { d.fields with directors := d.fields.directors.eraseIdx i } d.children
  | .addBank => .mk { d.fields with bankAccounts := d.fields.bankAccounts ++ [""] } d.children
  | .updateBank i v =>
      .mk { d.fields with bankAccounts := d.fields.bankAccounts.set i v } d.children
  | .removeBank i =>
      .mk { d.fields with bankAccounts := d.fields.bankAccounts.eraseIdx i } d.children
  | .addOwnerPerson oid =>
      .mk { d.fields with owners := d.fields.owners ++ [.person oid ""] } d.children
  | .addOwnerEntity oid entityId =>
      .mk { d.fields with owners := d.fields.owners ++ [.entity oid entityId] } d.children
  | .updateOwnerPerson i v =>
      let updated : Owner :=
        match d.fields.owners[i]? with
        | some (.person oid _) => .person oid v
        | some o => o
        | none => .person "" v
      .mk { d.fields with owners := d.fields.owners.set i updated } d.children
  | .removeOwner i =>
      .mk { d.fields with owners := d.fields.owners.eraseIdx i } d.children
  | .uploadDirectorDocs files =>
      .mk { d.fields with directorDocs := d.fields.directorDocs ++ files } d.children
  | .uploadOwnershipDocs files =>
      .mk { d.fields with ownershipDocs := d.fields.ownershipDocs ++ files } d.children

/-- The draft after a whole editing session's worth of handler invocations. -/
def applyDraftOps (ops : List DraftOp) (d : CompanyNode) : CompanyNode :=
  ops.foldl applyDraftOp d

/-- Seeding of the draft (src/App.tsx line 217):
`useState({ ...node, children: node.children })` — a shallow copy keeping
the children reference. -/
def initDraft (node : CompanyNode) : CompanyNode := .mk node.fields node.children

/-- An edit session that ends in Cancel: the draft is computed from the
incoming node and the performed operations but discarded; onCancel
(src/App.tsx lines 421, 532, 562) only clears the editing id, so the tree
value is returned as it was. -/
def cancelEditSession (t : List CompanyNode) (node : CompanyNode)
    (ops : List DraftOp) : List CompanyNode :=
  let _draft := applyDraftOps ops (initDraft node)
  t

theorem applyDraftOp_children (d : CompanyNode) (op : DraftOp) :
    (applyDraftOp d op).children = d.children := by
  cases op <;> rfl

theorem applyDraftOps_children (ops : List DraftOp) :
    ∀ d, (applyDraftOps ops d).children = d.children := by
  induction ops with
  | nil => intro d; rfl
  | cons op ops ih =>
    intro d
    rw [applyDraftOps, List.foldl_cons]
    have := ih (applyDraftOp d op)
    rw [applyDraftOps] at this
    rw [this, applyDraftOp_children]

/-! ### Concrete instances used by witnesses and counterexamples -/

/-- The seed forest with the three generator outputs fixed to
`"a"`, `"b"`, `"c"`. -/
def seedEx : List CompanyNode := seed "a" "b" "c"

/-- The Monaco child of `seedEx`: the node at root index 0, child index 0. -/
def monacoEx : CompanyNode :=
  .mk
    { id := "b"
      name := "Monaco Investments Ltd"
      regNo := "MC-2021-789"
      country := "Monaco"
      docs := .num (.finite 2)
      status := "warning"
      owners := []
      directors := ["Jean Dupont"]
      directorDocs := []
      ownershipDocs := []
      regDate := some "2021-09-01"
      taxNo := some "MC-987654"
      bankAccounts := [] }
    []

/-- A concrete whole-node updater of the kind the Edit Panel save commits:
overwrite the name, keep everything else. -/
def renameEx (n : CompanyNode) : CompanyNode :=
  .mk { n.fields with name := "Renamed Ltd" } n.children

/-- A node carrying a status string outside the documented three-value
set, as the unvalidated load path admits. -/
def bogusEx : CompanyNode :=
  .mk
    { id := "x1"
      name := "Shell Co"
      regNo := "—"
      country := "—"
      docs := .num (.finite 0)
      status := "under-review"
      owners := []
      directors := []
      directorDocs := []
      ownershipDocs := []
      regDate := none
      taxNo := none
      bankAccounts := [] }
    []

/-! ### Claims -/

/-- C1: for every tree and every id, `updateNode(id, updater)` replaces the
node with that id by `updater` applied to a shallow copy of it and leaves
every other entity literally unchanged (the updated node's subtree is
whatever the updater returns, so its children sequence is kept unless the
updater modifies it); when no node carries the id, the result is
structurally equal to the input tree. The replacement half addresses the
node by its path, presupposing the tree's ids are unique, as the data model
maintains. -/
theorem updateNode_correct (id : String) (u : CompanyNode → CompanyNode)
    (f : List CompanyNode) :
    (id ∉ forestIds f → updateNode id u f = f) ∧
    (∀ (i : Nat) (p : List Nat) (n : CompanyNode),
      uniqueIds f → pathGet f i p = some n → n.fields.id = id →
      updateNode id u f = pathReplace f i p (u n)) :=
  ⟨updateNode_not_mem id u f,
   fun i p n hu hg hi => updateNode_at_path id u f i p n hu hg hi⟩

/-- Witness for C1: renaming the Monaco child of the seed tree replaces
exactly the node at its path; an id absent from the tree leaves the tree
unchanged. -/
theorem updateNode_correct_witness :
    updateNode "zz" renameEx seedEx = seedEx ∧
    updateNode "b" renameEx seedEx = pathReplace seedEx 0 [0] (renameEx monacoEx) :=
  ⟨(updateNode_correct "zz" renameEx seedEx).1
      (by simp [seedEx, seed, forestIds]),
   (updateNode_correct "b" renameEx seedEx).2 0 [0] monacoEx
      (by simp [uniqueIds, seedEx, seed, forestIds])
      (by simp [seedEx, seed, pathGet, monacoEx]) rfl⟩

/-- C2: deleting an entity present in the tree removes it together with its
whole subtree — the parent's children sequence loses exactly the one
addressed element, keeping the remaining children in their original order
(`pathRemove` erases exactly one position), children are not re-parented,
every other entity is kept literally, and the entity count drops by the
removed subtree's size. -/
theorem deleteNode_correct (f : List CompanyNode) (i : Nat) (p : List Nat)
    (n : CompanyNode) :
    uniqueIds f → pathGet f i p = some n →
    deleteNode n.fields.id f = pathRemove f i p ∧
    forestSize (deleteNode n.fields.id f) = forestSize f - nodeSize n := by
  intro hu hg
  have h1 := deleteNode_at_path f i p n hu hg
  have h2 := pathRemove_size f i p n hg
  exact ⟨h1, by rw [h1]; omega⟩

/-- Witness for C2: deleting the Monaco child of the seed tree erases
exactly the node at its path and drops the count by one. -/
theorem deleteNode_correct_witness :
    deleteNode "b" seedEx = pathRemove seedEx 0 [0] ∧
    forestSize (deleteNode "b" seedEx) = forestSize seedEx - nodeSize monacoEx :=
  deleteNode_correct seedEx 0 [0] monacoEx
    (by simp [uniqueIds, seedEx, seed, forestIds])
    (by simp [seedEx, seed, pathGet, monacoEx])

/-- C3 counterexample: `uid()` performs no uniqueness check, so the
generated id can equal an id already present. With the generator output
`"a"` (the root's id) and parent `"b"`, addChild still appends the child,
and the new element's id is already present in the tree — the claim's
freshness guarantee fails at this input. -/
theorem addChild_freshness_cex :
    addChild "a" "b" seedEx =
      pathReplace seedEx 0 [0]
        (CompanyNode.mk monacoEx.fields (monacoEx.children ++ [newChild "a"])) ∧
    (newChild "a").fields.id ∈ forestIds seedEx := by
  constructor
  · rw [addChild_eq_updateNode]
    exact updateNode_at_path "b"
      (fun n => CompanyNode.mk n.fields (n.children ++ [newChild "a"]))
      seedEx 0 [0] monacoEx
      (by simp [uniqueIds, seedEx, seed, forestIds])
      (by simp [seedEx, seed, pathGet, monacoEx]) rfl
  · simp [newChild, seedEx, seed, forestIds]

/-- C3 (amended): invoking addChild on an existing entity appends exactly
one element at the end of that entity's children sequence (earlier children
keep their order; every other entity is kept literally), and the new
element carries the documented defaults — `name = "New Entity"`,
`regNo = "—"`, `country = "—"`, `docs = 0`, `status = warning`, empty
owners/directors/directorDocs/ownershipDocs/bankAccounts, no children —
and the generator's output as id, which is distinct from every id already
present whenever the generator does not collide (no uniqueness is
enforced). -/
theorem addChild_correct (newId parentId : String) (f : List CompanyNode)
    (i : Nat) (p : List Nat) (n : CompanyNode) :
    uniqueIds f → pathGet f i p = some n → n.fields.id = parentId →
    (addChild newId parentId f =
        pathReplace f i p (CompanyNode.mk n.fields (n.children ++ [newChild newId])) ∧
      (n.children ++ [newChild newId]).length = n.children.length + 1 ∧
      (newChild newId).fields.id = newId ∧
      (newChild newId).fields.name = "New Entity" ∧
      (newChild newId).fields.regNo = "—" ∧
      (newChild newId).fields.country = "—" ∧
      (newChild newId).fields.docs = DocsValue.num (.finite 0) ∧
      (newChild newId).fields.status = "warning" ∧
      (newChild newId).fields.owners = [] ∧
      (newChild newId).fields.directors = [] ∧
      (newChild newId).fields.directorDocs = [] ∧
      (newChild newId).fields.ownershipDocs = [] ∧
      (newChild newId).fields.bankAccounts = [] ∧
      (newChild newId).children = [] ∧
      (newId ∉ forestIds f → ∀ x ∈ forestIds f, (newChild newId).fields.id ≠ x)) := by
  intro hu hg hp
  refine ⟨?_, by simp, rfl, rfl, rfl, rfl, rfl, rfl, rfl, rfl, rfl, rfl, rfl, rfl, ?_⟩
  · rw [addChild_eq_updateNode]
    exact updateNode_at_path parentId
      (fun m => CompanyNode.mk m.fields (m.children ++ [newChild newId]))
      f i p n hu hg hp
  · intro hfresh x hx heq
    apply hfresh
    have hid : (newChild newId).fields.id = newId := rfl
    rw [hid] at heq
    exact heq ▸ hx

/-- Witness for C3 (amended): adding a child with the fresh generator
output `"zz"` under the Monaco node appends exactly the default child
there. -/
theorem addChild_correct_witness :
    addChild "zz" "b" seedEx =
      pathReplace seedEx 0 [0]
        (CompanyNode.mk monacoEx.fields (monacoEx.children ++ [newChild "zz"])) ∧
    ("zz" ∉ forestIds seedEx → ∀ x ∈ forestIds seedEx, (newChild "zz").fields.id ≠ x) :=
  ⟨(addChild_correct "zz" "b" seedEx 0 [0] monacoEx
      (by simp [uniqueIds, seedEx, seed, forestIds])
      (by simp [seedEx, seed, pathGet, monacoEx]) rfl).1,
   (addChild_correct "zz" "b" seedEx 0 [0] monacoEx
      (by simp [uniqueIds, seedEx, seed, forestIds])
      (by simp [seedEx, seed, pathGet, monacoEx]) rfl).2.2.2.2.2.2.2.2.2.2.2.2.2.2⟩

/-- C4: the Portfolio Summary Aggregator returns three non-negative counts
(compliant, warning, critical — the codomain is natural numbers) over the
root and every descendant, their sum equals the total number of entities in
the tree, and the seed tree yields 1/1/1 whatever ids the generator
produced. -/
theorem summary_totals :
    (∀ f : List CompanyNode,
      (summary f).1 + (summary f).2.1 + (summary f).2.2 = forestSize f) ∧
    (∀ u1 u2 u3 : String, summary (seed u1 u2 u3) = (1, 1, 1)) := by
  constructor
  · intro f
    rw [summary_eq_counts]
    show (flatten f).countP isCompliantB + (flatten f).countP isWarningB +
      (flatten f).countP isCriticalB = forestSize f
    rw [countP_three_sum, flatten_length]
  · intro u1 u2 u3
    simp [seed, summary, flatten, summaryStep, isCompliantB, isWarningB]

/-- A tree built solely from the documented mutation operations — the seed
followed by updateNode committing an edit-panel draft whose Docs input
received non-numeric text, so that `Number(e.target.value)` produced
`NaN` (spec §4.9) on the Monaco entity. -/
def nanDraftEx : List CompanyNode :=
  updateNode "b"
    (fun n => applyDraftOps [DraftOp.setDocs JsNumber.nan] (initDraft n)) seedEx

/-- C5 counterexample: for the documented-operations tree `nanDraftEx`
(seed, then an edit-panel draft storing `NaN` in docs, committed by
updateNode), saving and loading does not return a tree equal to the
original: `JSON.stringify` writes `null` for the non-finite docs value and
the loaded tree carries `null` where the saved one carried `NaN`. -/
theorem persistence_nan_cex :
    load (save nanDraftEx []) = some (reloadForest nanDraftEx) ∧
    load (save nanDraftEx []) ≠ some nanDraftEx := by
  refine ⟨load_save nanDraftEx [], ?_⟩
  rw [load_save]
  intro h
  injection h with h
  have hpath := congrArg (fun f => pathGet f 0 [0]) h
  simp only [nanDraftEx, seedEx, seed, updateNode, applyDraftOps, List.foldl_cons,
    List.foldl_nil, applyDraftOp, initDraft, reloadForest, reloadDocs,
    CompanyNode.fields_mk, CompanyNode.children_mk] at hpath
  simp [reloadForest, reloadDocs, pathGet] at hpath

/-- C5 (amended): saving a tree and then loading returns the tree with
every non-finite docs value (NaN or ±Infinity, storable through the Docs
draft) replaced by `null` and everything else intact; the result is deeply
(structurally) equal to the original exactly on trees all of whose docs
values are JSON-representable — which covers every tree the seed,
addChild and deleteNode alone can build, but not every edit-panel draft. -/
theorem persistence_roundtrip (t : List CompanyNode) (s : Storage) :
    load (save t s) = some (reloadForest t) ∧
    (jsonSafeDocs t → load (save t s) = some t) := by
  refine ⟨load_save t s, fun hsafe => ?_⟩
  rw [load_save, reloadForest_eq_self t hsafe]

/-- Witness for C5 (amended): the seed tree has only finite docs values
and round-trips unchanged. -/
theorem persistence_roundtrip_witness :
    load (save seedEx []) = some seedEx :=
  (persistence_roundtrip seedEx []).2
    (by simp [jsonSafeDocs, seedEx, seed, docsJsonSafe])

/-- A documented-operations tree whose Luxembourg entity's Docs draft
received overflowing input, so `Number(e.target.value)` produced
`Infinity`. -/
def infDraftEx : List CompanyNode :=
  updateNode "c"
    (fun n => applyDraftOps [DraftOp.setDocs JsNumber.inf] (initDraft n)) seedEx

/-- C6 counterexample: with `Infinity` stored in one docs field the stored
value is present and parseable, yet load does not return the previously
saved tree — the non-finite value was serialized as `null` and comes back
as `null`. -/
theorem load_nonfinite_cex :
    load (save infDraftEx []) = some (reloadForest infDraftEx) ∧
    load (save infDraftEx []) ≠ some infDraftEx := by
  refine ⟨load_save infDraftEx [], ?_⟩
  rw [load_save]
  intro h
  injection h with h
  have hpath := congrArg (fun f => pathGet f 0 [1]) h
  simp only [infDraftEx, seedEx, seed, updateNode, applyDraftOps, List.foldl_cons,
    List.foldl_nil, applyDraftOp, initDraft, reloadForest, reloadDocs,
    CompanyNode.fields_mk, CompanyNode.children_mk] at hpath
  simp [reloadForest, reloadDocs, pathGet] at hpath

/-- C6 (amended): load returns the parse of the previously saved
serialization when the stored value is present and parseable — equal to
the previously saved tree whenever every docs value is JSON-representable
(non-finite docs values come back as `null`); it returns an absent result
both for a missing key and for malformed content (the parse failure is
caught, never propagated — load is a total function into an option); and
in the absent case the application proceeds with the seed data. -/
theorem load_error_handling :
    (load [] = none) ∧
    (load [(STORAGE_KEY, RawText.malformed)] = none) ∧
    (∀ (t : List CompanyNode) (s : Storage), load (save t s) = some (reloadForest t)) ∧
    (∀ (t : List CompanyNode) (s : Storage), jsonSafeDocs t →
      load (save t s) = some t) ∧
    (∀ (s : Storage) (u1 u2 u3 : String), load s = none →
      initialTree s u1 u2 u3 = seed u1 u2 u3) := by
  refine ⟨?_, ?_, fun t s => load_save t s, fun t s hsafe => ?_, ?_⟩
  · simp [load, getItem]
  · simp [load, getItem, jsonParse]
  · rw [load_save, reloadForest_eq_self t hsafe]
  · intro s u1 u2 u3 h
    simp [initialTree, h]

/-- Witness for C6: the seed tree loads back exactly after a save, and on
empty storage the application starts from the seed data. -/
theorem load_error_handling_witness :
    load (save (seed "a" "b" "c") []) = some (seed "a" "b" "c") ∧
    initialTree [] "a" "b" "c" = seed "a" "b" "c" :=
  ⟨load_error_handling.2.2.2.1 (seed "a" "b" "c") []
      (by simp [jsonSafeDocs, seed, docsJsonSafe]),
   load_error_handling.2.2.2.2 [] "a" "b" "c" load_error_handling.1⟩

/-- C7: flatten lists every node of the tree in depth-first pre-order: its
length is the total number of entities, membership in the listing coincides
with occurrence in the tree, every occurring node is immediately followed
by its own flattened subtree (hence appears before every one of its
children), and under the data model's unique ids every node appears exactly
once (the listing has no duplicates). -/
theorem flatten_correct (f : List CompanyNode) :
    ((flatten f).length = forestSize f) ∧
    (∀ m, m ∈ flatten f ↔ occursIn m f) ∧
    (∀ m, occursIn m f →
      ∃ pre post, flatten f = pre ++ (m :: flatten m.children) ++ post) ∧
    ((flatten f).map (fun n => n.fields.id) = forestIds f) ∧
    (uniqueIds f → (flatten f).Nodup) := by
  refine ⟨flatten_length f, flatten_mem f, flatten_seg f, flatten_map_ids f, ?_⟩
  intro hu
  unfold uniqueIds at hu
  rw [← flatten_map_ids f] at hu
  exact hu.of_map

/-- Witness for C7: in the seed tree, the Monaco node is listed, followed
by its (empty) subtree, and the listing has no duplicates. -/
theorem flatten_correct_witness :
    (∃ pre post,
      flatten seedEx = pre ++ (monacoEx :: flatten monacoEx.children) ++ post) ∧
    (flatten seedEx).Nodup :=
  ⟨(flatten_correct seedEx).2.2.1 monacoEx
      (by simp [seedEx, seed, occursIn, monacoEx]),
   (flatten_correct seedEx).2.2.2.2
      (by simp [uniqueIds, seedEx, seed, forestIds])⟩

/-- C8: an edit session that ends in Cancel is a no-op on the tree: the
tree value is returned unchanged, so its serialization is byte-for-byte
identical; the draft is seeded as a shallow copy of the node (equal to the
node under value semantics); and no draft operation ever touches the
node's children sequence — list edits build fresh arrays on the draft
only. -/
theorem edit_cancel_noop (t : List CompanyNode) (node : CompanyNode)
    (ops : List DraftOp) :
    cancelEditSession t node ops = t ∧
    encodeList (cancelEditSession t node ops) = encodeList t ∧
    save (cancelEditSession t node ops) [] = save t [] ∧
    (applyDraftOps ops (initDraft node)).children = node.children ∧
    initDraft node = node := by
  refine ⟨rfl, rfl, rfl, ?_, CompanyNode.eta node⟩
  rw [applyDraftOps_children, initDraft, CompanyNode.children_mk]

/-- C9: the summary's third counter counts exactly the nodes whose status
is neither `"compliant"` nor `"warning"` — including unrecognized status
strings admitted through the unvalidated load path — and the three counts
still sum to the node total for trees whose statuses lie outside the
closed three-value set: a node with status `"under-review"` round-trips
through save/load unchanged and lands in the critical bucket. -/
theorem summary_unrecognized_status :
    (∀ f : List CompanyNode,
      (summary f).2.2 = ((flatten f).filter isCriticalB).length) ∧
    (∀ f : List CompanyNode,
      (summary f).1 + (summary f).2.1 + (summary f).2.2 = forestSize f) ∧
    (load (save [bogusEx] []) = some [bogusEx]) ∧
    (summary [bogusEx] = (0, 0, 1)) := by
  have hsafe : load (save [bogusEx] []) = some [bogusEx] := by
    rw [load_save, reloadForest_eq_self [bogusEx]
      (by simp [jsonSafeDocs, bogusEx, docsJsonSafe])]
  refine ⟨?_, ?_, hsafe, ?_⟩
  · intro f
    rw [summary_eq_counts]
    show (flatten f).countP isCriticalB = ((flatten f).filter isCriticalB).length
    exact List.countP_eq_length_filter _ _
  · intro f
    rw [summary_eq_counts]
    show (flatten f).countP isCompliantB + (flatten f).countP isWarningB +
      (flatten f).countP isCriticalB = forestSize f
    rw [countP_three_sum, flatten_length]
  · simp [summary, flatten, bogusEx, summaryStep, isCompliantB, isWarningB]

/-- In the Structure view the root card is rendered with
`onDelete={undefined}` (src/App.tsx line 540): no delete control is offered
for the root. -/
def rootCardOffersDelete : Bool := false

/-- Child cards are rendered with a live handler that confirms and then
calls deleteNode (src/App.tsx line 570). -/
def childCardOffersDelete : Bool := true

/-- C10: deleteNode is total over the forest and filters at every level
including the top one: no node with the deleted id survives anywhere, a
matching root is dropped at the top level itself, and deleting the only
root's id yields the empty tree — the mutation engine does not protect the
root; only the Structure view withholds the root card's delete control
while offering it on child cards. -/
theorem deleteNode_total_root :
    (∀ (id : String) (f : List CompanyNode), id ∉ forestIds (deleteNode id f)) ∧
    (∀ (n : CompanyNode) (f : List CompanyNode),
      deleteNode n.fields.id (n :: f) = deleteNode n.fields.id f) ∧
    (∀ n : CompanyNode, deleteNode n.fields.id [n] = []) ∧
    rootCardOffersDelete = false ∧ childCardOffersDelete = true := by
  have htop : ∀ (n : CompanyNode) (f : List CompanyNode),
      deleteNode n.fields.id (n :: f) = deleteNode n.fields.id f := by
    intro n f
    obtain ⟨fs, cs⟩ := n
    simp [deleteNode]
  refine ⟨?_, htop, fun n => (htop n []).trans (by simp [deleteNode]), rfl, rfl⟩
  intro id f
  induction f using forest_induction with
  | h1 => simp [deleteNode, forestIds]
  | h2 fs cs ns ihc ihn =>
    by_cases h : fs.id = id
    · rw [deleteNode, if_pos h]
      exact ihn
    · rw [deleteNode, if_neg h, forestIds]
      simp only [List.mem_cons, List.mem_append]
      push_neg
      exact ⟨fun hc => h hc.symm, ihc, ihn⟩

end Zeina
